import Mathlib

/-!
Verification of the curl-parser repository (Go) against its specification.

The Go sources work on strings; here commands are shallowly embedded as
`List Char`.  Each Go regular expression used by the parser is embedded as a
dedicated scanning function that mirrors the leftmost-first matching
semantics of Go's `regexp` package for that particular pattern, and the
`net/url` standard-library calls (`url.Parse`, `URL.Query`) are modelled for
the `http://` / `https://` URLs that the parser feeds them.

Conventions:
  * Go maps (`map[string]string`) become key-unique association lists
    (`List (List Char × List Char)`) with `updateAL` (assignment, i.e.
    last-write-wins) and `lookupAL` (indexing).
  * `regexSpace` is RE2's `\s` class; `goSpace` is the class trimmed by
    Go's `strings.TrimSpace` (`unicode.IsSpace`, ASCII part plus NEL/NBSP).
-/

namespace CurlParser

/-- The single-quote character (ASCII 39). -/
def squote : Char := Char.ofNat 39

/-- The double-quote character. -/
def dquote : Char := '"'

/-- RE2 character class `\s` (Perl whitespace): tab, newline, form feed,
carriage return, space. -/
def regexSpace (c : Char) : Bool :=
  c = ' ' ∨ c = '\t' ∨ c = '\n' ∨ c = Char.ofNat 12 ∨ c = '\r'

/-- The whitespace class of Go's `strings.TrimSpace` (`unicode.IsSpace`):
ASCII spaces plus U+0085 and U+00A0 (further exotic Unicode space code
points, which no claim touches, are omitted). -/
def goSpace (c : Char) : Bool :=
  c = ' ' ∨ c = '\t' ∨ c = '\n' ∨ c = Char.ofNat 11 ∨ c = Char.ofNat 12 ∨
    c = '\r' ∨ c = Char.ofNat 133 ∨ c = Char.ofNat 160

/-- RE2 character class `\w`: `[0-9A-Za-z_]`. -/
def isWordChar (c : Char) : Bool :=
  ('0' ≤ c ∧ c ≤ '9') ∨ ('A' ≤ c ∧ c ≤ 'Z') ∨ ('a' ≤ c ∧ c ≤ 'z') ∨ c = '_'

/-- Characters admitted by `[^\s"']` in the URL-extraction patterns. -/
def urlChar (c : Char) : Bool :=
  ¬ regexSpace c ∧ c ≠ dquote ∧ c ≠ squote

/-- ASCII decimal digit. -/
def isDigitChar (c : Char) : Bool := '0' ≤ c ∧ c ≤ '9'

/-- `isPfx p s` holds when the list `p` is a prefix of `s`
(Go `strings.HasPrefix`). -/
def isPfx : List Char → List Char → Bool
  | [], _ => true
  | _ :: _, [] => false
  | p :: ps, s :: ss => p = s ∧ isPfx ps ss

/-- Substring containment (Go `strings.Contains`). -/
def containsSub (s pat : List Char) : Bool :=
  match s with
  | [] => isPfx pat []
  | _ :: r => isPfx pat s ∨ containsSub r pat

/-- Split at the first occurrence of `c` (Go `strings.Cut` /
`strings.SplitN _ _ 2`): the part before, and, when found, the part after. -/
def cutAtChar (c : Char) : List Char → List Char × Option (List Char)
  | [] => ([], none)
  | a :: r =>
    if a = c then ([], some r)
    else
      let p := cutAtChar c r
      (a :: p.1, p.2)

/-- Split on every occurrence of `c` (Go `strings.Split`). -/
def splitOnChar (c : Char) : List Char → List (List Char)
  | [] => [[]]
  | a :: r =>
    if a = c then [] :: splitOnChar c r
    else
      match splitOnChar c r with
      | [] => [[a]]
      | g :: gs => (a :: g) :: gs

/-- Go `strings.TrimSpace`: drop `goSpace` characters from both ends. -/
def trimGo (s : List Char) : List Char :=
  ((s.dropWhile goSpace).reverse.dropWhile goSpace).reverse

/-- Association-list lookup (Go map indexing `m[k]`). -/
def lookupAL {α : Type} : List (List Char × α) → List Char → Option α
  | [], _ => none
  | p :: r, k => if p.1 = k then some p.2 else lookupAL r k

/-- Association-list assignment (Go `m[k] = v`): replaces the binding in
place when the key is present, appends it otherwise. -/
def updateAL {α : Type} (m : List (List Char × α)) (k : List Char) (v : α) :
    List (List Char × α) :=
  match m with
  | [] => [(k, v)]
  | p :: r => if p.1 = k then (k, v) :: r else p :: updateAL r k v

/-- Go `strings.ToUpper` restricted to ASCII (the only characters RE2's
`\w` lets through to it in this parser). -/
def upperL (s : List Char) : List Char := s.map Char.toUpper

/-! ## URL extraction (`extractURL`, src/parser.go lines 122-139)

The first pattern is `(?:"|'|)(https?://[^\s"']+)("|'|)` and the fallback
is `(https?://[^\s"']+)`.  `schemeRunAt` is the submatch
`(https?://[^\s"']+)` anchored at one position; the scanners below add the
left-to-right search over start positions. -/

/-- The literal characters of `"http://"`. -/
def httpPfx : List Char := ['h', 't', 't', 'p', ':', '/', '/']

/-- The literal characters of `"https://"`. -/
def httpsPfx : List Char := ['h', 't', 't', 'p', 's', ':', '/', '/']

/-- Anchored match of `https?://[^\s"']+`: at this exact position the text
must start with a scheme, followed by at least one `urlChar`; the capture
is the scheme plus the maximal `urlChar` run (greedy `+`). -/
def schemeRunAt (s : List Char) : Option (List Char) :=
  if isPfx httpsPfx s then
    match (s.drop 8).takeWhile urlChar with
    | [] => none
    | run => some (httpsPfx ++ run)
  else if isPfx httpPfx s then
    match (s.drop 7).takeWhile urlChar with
    | [] => none
    | run => some (httpPfx ++ run)
  else none

/-- First (quote-aware) URL pattern `(?:"|'|)(https?://[^\s"']+)("|'|)`:
leftmost start position wins; at a position the quote alternatives are
tried before the empty one.  The trailing `("|'|)` always matches. -/
def urlQuotedFirst : List Char → Option (List Char)
  | [] => none
  | c :: r =>
    if (c = dquote ∨ c = squote) ∧ (schemeRunAt r).isSome then schemeRunAt r
    else
      match schemeRunAt (c :: r) with
      | some u => some u
      | none => urlQuotedFirst r

/-- Fallback (loose) URL pattern `(https?://[^\s"']+)`: leftmost match. -/
def urlLoose : List Char → Option (List Char)
  | [] => none
  | c :: r =>
    match schemeRunAt (c :: r) with
    | some u => some u
    | none => urlLoose r

/-- `extractURL` (src/parser.go lines 122-139): try the quote-aware
pattern, fall back to the loose one; `none` embeds the returned error. -/
def extractURL (cmd : List Char) : Option (List Char) :=
  match urlQuotedFirst cmd with
  | some u => some u
  | none => urlLoose cmd

/-- Claim-side notion of a target-address pattern anchored at the front of
`s`, amended with the `[^\s"']+` requirement: the text starts with a
scheme followed by at least one non-whitespace, non-quote character. -/
def schemeRunAtP (s : List Char) : Prop :=
  (∃ c t, s = httpsPfx ++ c :: t ∧ urlChar c) ∨
    (∃ c t, s = httpPfx ++ c :: t ∧ urlChar c)

/-- Claim-side: the command contains, at some position, a target-address
pattern in the sense of `schemeRunAtP`. -/
def hasURLPattern (s : List Char) : Prop :=
  ∃ n, schemeRunAtP (s.drop n)

/-! ## Method extraction (`extractMethod`, src/parser.go lines 142-169) -/

/-- First match of `PAT\s+(\w+)` for a literal `PAT` (used with `-X` and
`--request`): scan start positions left to right; at a hit the greedy
`\s+` takes the maximal whitespace run (at least one character) and the
capture is the maximal `\w+` run after it (at least one character). -/
def findTokenArg (pat : List Char) : List Char → Option (List Char)
  | [] => none
  | s@(_ :: r) =>
    if isPfx pat s then
      let rest := s.drop pat.length
      let rem := rest.dropWhile regexSpace
      if (rest.takeWhile regexSpace) ≠ [] ∧ (rem.takeWhile isWordChar) ≠ [] then
        some (rem.takeWhile isWordChar)
      else findTokenArg pat r
    else findTokenArg pat r

/-- `extractMethod` (src/parser.go lines 142-169): `-X` argument, else
`--request` argument (upper-cased), else `POST` on a `--data`/`-d` or
`--form`/`-F` substring, else `GET`. -/
def extractMethod (cmd : List Char) : List Char :=
  match findTokenArg "-X".data cmd with
  | some w => upperL w
  | none =>
    match findTokenArg "--request".data cmd with
    | some w => upperL w
    | none =>
      if containsSub cmd "--data".data ∨ containsSub cmd "-d".data then
        "POST".data
      else if containsSub cmd "--form".data ∨ containsSub cmd "-F".data then
        "POST".data
      else "GET".data

/-! ## Shared option-value matching

`-H`/`--header` and `-F`/`--form` use the pattern
`(?:SHORT|LONG)\s+(?:'([^']*)'|"([^"]*)"|([^\s]+))` with
`FindAllStringSubmatch`; the data option uses the quoted alternatives as
separate single-match patterns.  In every such pair the two option
spellings can never match at the same position (one starts `-X`, the other
`--`), so the alternation order is immaterial and both are tried with
`isPfx`. -/

/-- Length of the option name matching at the head of `s`, if any:
`long` is tried as well as `short` (they are mutually exclusive). -/
def optPfxAt (long short s : List Char) : Option Nat :=
  if isPfx short s then some short.length
  else if isPfx long s then some long.length
  else none

/-- Anchored value part `\s+(?:'([^']*)'|"([^"]*)"|([^\s]+))`: returns the
capture (which is empty for `''` or `""`) and the text after the whole
match.  An unclosed quote falls through to the bare `[^\s]+` alternative,
which then starts at the quote character itself. -/
def valueAfterWs (rest : List Char) : Option (List Char × List Char) :=
  if (rest.takeWhile regexSpace) = [] then none
  else
    let rem := rest.dropWhile regexSpace
    let bare : Option (List Char × List Char) :=
      match rem.takeWhile (fun c => ¬ regexSpace c) with
      | [] => none
      | run => some (run, rem.dropWhile (fun c => ¬ regexSpace c))
    match rem with
    | [] => none
    | c :: r2 =>
      if c = squote then
        match cutAtChar squote r2 with
        | (content, some after) => some (content, after)
        | (_, none) => bare
      else if c = dquote then
        match cutAtChar dquote r2 with
        | (content, some after) => some (content, after)
        | (_, none) => bare
      else bare

/-- One anchored attempt of the full option pattern at the head of `s`. -/
def tryOptVal (long short s : List Char) : Option (List Char × List Char) :=
  match optPfxAt long short s with
  | some n => valueAfterWs (s.drop n)
  | none => none

/-- `FindAllStringSubmatch` for the option pattern: all non-overlapping
matches, scanning left to right and resuming after each match.  The fuel
(initially the length of the text) bounds the recursion; every match
consumes at least one character, so it never runs out. -/
def optValMatchesAux (long short : List Char) :
    Nat → List Char → List (List Char)
  | 0, _ => []
  | _ + 1, [] => []
  | f + 1, s@(_ :: r) =>
    match tryOptVal long short s with
    | some (cap, after) => cap :: optValMatchesAux long short f after
    | none => optValMatchesAux long short f r

/-- All captures of the option pattern, in document order. -/
def optValMatches (long short s : List Char) : List (List Char) :=
  optValMatchesAux long short s.length s

/-! ## Header extraction (`extractHeaders`, src/parser.go lines 172-201) -/

/-- The matches of `(?:-H|--header)\s+(?:'([^']*)'|"([^"]*)"|([^\s]+))`. -/
def headerMatches (cmd : List Char) : List (List Char) :=
  optValMatches "--header".data "-H".data cmd

/-- Body of the loop in `extractHeaders`: skip an empty capture, split on
the first colon (`strings.SplitN(header, ":", 2)`), discard a header
without a colon, trim name and value, and assign into the map. -/
def addHeader (hs : List (List Char × List Char)) (m : List Char) :
    List (List Char × List Char) :=
  if m = [] then hs
  else
    match cutAtChar ':' m with
    | (k, some v) => updateAL hs (trimGo k) (trimGo v)
    | (_, none) => hs

/-- `extractHeaders` (src/parser.go lines 172-201). -/
def extractHeaders (cmd : List Char) : List (List Char × List Char) :=
  (headerMatches cmd).foldl addHeader []

/-! ## Body extraction (`extractBody`, src/parser.go lines 204-257) -/

/-- First match of `(?:LONG|SHORT)\s+Q([^Q]*)Q` for a quote character `Q`:
a single-match quoted option value (used by the data and cookie
options). -/
def scanOptQuoted (long short : List Char) (q : Char) :
    List Char → Option (List Char)
  | [] => none
  | s@(_ :: r) =>
    match optPfxAt long short s with
    | some n =>
      let rest := s.drop n
      let rem := rest.dropWhile regexSpace
      if (rest.takeWhile regexSpace) ≠ [] then
        match rem with
        | c :: r2 =>
          if c = q then
            match cutAtChar q r2 with
            | (content, some _) => some content
            | (_, none) => scanOptQuoted long short q r
          else scanOptQuoted long short q r
        | [] => scanOptQuoted long short q r
      else scanOptQuoted long short q r
    | none => scanOptQuoted long short q r

/-- The single- and double-quoted data alternatives
`(?:--data|-d)\s+'([^']*)'` and `(?:--data|-d)\s+"([^"]*)"`. -/
def scanDataQuoted (q : Char) (s : List Char) : Option (List Char) :=
  scanOptQuoted "--data".data "-d".data q s

/-- Strip the optional surrounding quotes of `['"]?(.*?)['"]?$`: the
greedy opening `['"]?` takes a leading quote when present, the lazy
`(.*?)` then makes the trailing `['"]?` take a final quote when present. -/
def stripRawQuotes (rem : List Char) : List Char :=
  let r1 :=
    match rem with
    | c :: t => if c = squote ∨ c = dquote then t else rem
    | [] => rem
  match r1.getLast? with
  | some c => if c = squote ∨ c = dquote then r1.dropLast else r1
  | none => r1

/-- First match of `--data-raw\s+['"]?(.*?)['"]?$`: `$` is the end of the
whole text (Go's default, no `(?m)`) and `.` does not match a newline, so
after the whitespace run the remaining text must reach the end of the
input without a newline. -/
def scanDataRaw : List Char → Option (List Char)
  | [] => none
  | s@(_ :: r) =>
    if isPfx "--data-raw".data s then
      let rest := s.drop 10
      let rem := rest.dropWhile regexSpace
      if (rest.takeWhile regexSpace) ≠ [] ∧ ¬ rem.contains '\n' then
        some (stripRawQuotes rem)
      else scanDataRaw r
    else scanDataRaw r

/-- First match of `(?:--data|-d)\s+([^\s]+)`: the unquoted data
alternative, capturing the maximal non-whitespace run. -/
def scanDataBare : List Char → Option (List Char)
  | [] => none
  | s@(_ :: r) =>
    match optPfxAt "--data".data "-d".data s with
    | some n =>
      let rest := s.drop n
      let rem := rest.dropWhile regexSpace
      if (rest.takeWhile regexSpace) ≠ [] ∧
          (rem.takeWhile (fun c => ¬ regexSpace c)) ≠ [] then
        some (rem.takeWhile (fun c => ¬ regexSpace c))
      else scanDataBare r
    | none => scanDataBare r

/-- The matches of `(?:--form|-F)\s+(?:'([^']*)'|"([^"]*)"|([^\s]+))`. -/
def formMatches (cmd : List Char) : List (List Char) :=
  optValMatches "--form".data "-F".data cmd

/-- `extractBody` (src/parser.go lines 204-257): the five body sources in
priority order; with only form matches, the non-empty captures joined by
`&`; otherwise the empty string. -/
def extractBody (cmd : List Char) : List Char :=
  match scanDataQuoted squote cmd with
  | some b => b
  | none =>
    match scanDataQuoted dquote cmd with
    | some b => b
    | none =>
      match scanDataRaw cmd with
      | some b => b
      | none =>
        match scanDataBare cmd with
        | some b => b
        | none =>
          match formMatches cmd with
          | [] => []
          | ms => List.intercalate "&".data (ms.filter (· ≠ []))

/-! ## Bounded unquoted option values

Several options use the unquoted alternative
`([^\s-][^\s]*(?:\s+[^\s-][^\s]*)*?)(?:\s+-|$|\s+https?://)` (the cookie
option, user agent, auth, CA cert and cookie jar include the
`\s+https?://` terminator; referer and proxy stop at `\s+-|$` only).
The lazy inner repetition ends the capture at the first terminator
opportunity after a token; when whitespace is followed by the end of the
text no alternative applies and the whole position fails. -/

/-- The loop after a captured token: `acc` is the capture so far and `rem`
the remaining text (empty or starting with whitespace, the token being
maximal).  The fuel starts at the length of the text; each iteration
consumes at least two characters. -/
def bareTermLoop (withHttp : Bool) :
    Nat → List Char → List Char → Option (List Char)
  | _, acc, [] => some acc
  | 0, _, _ => none
  | f + 1, acc, rem =>
    let w := rem.takeWhile regexSpace
    let rem2 := rem.dropWhile regexSpace
    if w = [] then none
    else
      match rem2 with
      | [] => none
      | c :: _ =>
        if c = '-' then some acc
        else if withHttp ∧ (isPfx httpPfx rem2 ∨ isPfx httpsPfx rem2) then
          some acc
        else
          bareTermLoop withHttp f
            (acc ++ w ++ rem2.takeWhile (fun x => ¬ regexSpace x))
            (rem2.dropWhile (fun x => ¬ regexSpace x))

/-- Anchored match of the whole bounded unquoted value, starting right
after the option's `\s+`. -/
def bareTermStart (withHttp : Bool) (rem : List Char) : Option (List Char) :=
  match rem with
  | [] => none
  | c :: _ =>
    if regexSpace c ∨ c = '-' then none
    else
      bareTermLoop withHttp rem.length
        (rem.takeWhile (fun x => ¬ regexSpace x))
        (rem.dropWhile (fun x => ¬ regexSpace x))

/-- First match of
`(?:SHORT|LONG)\s+(?:'([^']*)'|"([^"]*)"|(BOUNDED))` — the shape shared by
`extractUserAgent`, `extractAuth`, `extractReferer`, `extractProxy`,
`extractSSLOptions` (the `--cacert` part) and `extractCookieJar`.  The
capture of the matched alternative is returned (it is empty exactly when
an empty quoted value matched, in which case the Go code leaves the field
at its default, equal to the trimmed empty capture). -/
def scanOptTerm (long short : List Char) (withHttp : Bool) :
    List Char → Option (List Char)
  | [] => none
  | s@(_ :: r) =>
    match optPfxAt long short s with
    | some n =>
      let rest := s.drop n
      let rem := rest.dropWhile regexSpace
      if (rest.takeWhile regexSpace) ≠ [] then
        match rem with
        | c :: r2 =>
          if c = squote then
            match cutAtChar squote r2 with
            | (content, some _) => some content
            | (_, none) =>
              match bareTermStart withHttp rem with
              | some g => some g
              | none => scanOptTerm long short withHttp r
          else if c = dquote then
            match cutAtChar dquote r2 with
            | (content, some _) => some content
            | (_, none) =>
              match bareTermStart withHttp rem with
              | some g => some g
              | none => scanOptTerm long short withHttp r
          else
            match bareTermStart withHttp rem with
            | some g => some g
            | none => scanOptTerm long short withHttp r
        | [] => scanOptTerm long short withHttp r
      else scanOptTerm long short withHttp r
    | none => scanOptTerm long short withHttp r

/-! ## Cookie extraction
(`extractCookies` / `extractCookieFromParams`, src/parser.go 275-351) -/

/-- The unquoted cookie alternative
`(?:-b|--cookie)\s+([^\s-][^\s]*(?:\s+[^\s-][^\s]*)*?)(?:\s+-|$|\s+https?://)`. -/
def cookieBare : List Char → Option (List Char)
  | [] => none
  | s@(_ :: r) =>
    match optPfxAt "--cookie".data "-b".data s with
    | some n =>
      let rest := s.drop n
      let rem := rest.dropWhile regexSpace
      if (rest.takeWhile regexSpace) ≠ [] then
        match bareTermStart true rem with
        | some g => some g
        | none => cookieBare r
      else cookieBare r
    | none => cookieBare r

/-- `extractCookieFromParams` (src/parser.go lines 318-351).  It reads the
*original* command (`cp.curlCommand`), not the prefix-stripped one.  The
empty string stands for Go's `""` "nothing found" result; note that an
empty quoted value (`-b ''`) returns `""` without trying the later
patterns, exactly as the Go code does. -/
def extractCookieFromParams (orig : List Char) : List Char :=
  match scanOptQuoted "--cookie".data "-b".data squote orig with
  | some v => v
  | none =>
    match scanOptQuoted "--cookie".data "-b".data dquote orig with
    | some v => v
    | none =>
      match cookieBare orig with
      | some v => trimGo v
      | none => []

/-- The cookie-string decomposition of `extractCookies` (src/parser.go
lines 296-314): split on `;`, trim each segment, skip empty segments,
split on the first `=`, trim name and value, drop segments without `=`. -/
def cookiePairsOf (s : List Char) : List (List Char × List Char) :=
  (splitOnChar ';' s).foldl
    (fun m seg =>
      let p := trimGo seg
      if p = [] then m
      else
        match cutAtChar '=' p with
        | (k, some v) => updateAL m (trimGo k) (trimGo v)
        | (_, none) => m)
    []

/-! ## Numeric and boolean options (src/parser.go lines 422-485) -/

/-- First match of `PAT\s+(\d+)` (the `--connect-timeout` / `--max-time`
patterns). -/
def findDigitsArg (pat : List Char) : List Char → Option (List Char)
  | [] => none
  | s@(_ :: r) =>
    if isPfx pat s then
      let rest := s.drop pat.length
      let rem := rest.dropWhile regexSpace
      if (rest.takeWhile regexSpace) ≠ [] ∧ (rem.takeWhile isDigitChar) ≠ [] then
        some (rem.takeWhile isDigitChar)
      else findDigitsArg pat r
    else findDigitsArg pat r

/-- Decimal digits to a number (`fmt.Sscanf` with `%d` on a digit run). -/
def digitsToNat (ds : List Char) : Nat :=
  ds.foldl (fun a c => 10 * a + (c.toNat - 48)) 0

/-! ## Model of Go's `net/url` (the "standard URI-parsing facility" of
spec §6, used by `Parse` and `extractQueryParams`)

`url.Parse` is modelled for the URLs this parser ever feeds it: strings
produced by `extractURL`, which always begin with lowercase `http://` or
`https://` and contain no whitespace or quotes.  Other scheme shapes
return `none`; bracketed (IPv6) hosts are not modelled and also return
`none`.  Decoded bytes are represented as characters with the byte's code
point (multi-byte UTF-8 percent-sequences are not re-assembled; no claim
depends on them). -/

/-- Hexadecimal digit value. -/
def hexVal (c : Char) : Option Nat :=
  if '0' ≤ c ∧ c ≤ '9' then some (c.toNat - 48)
  else if 'a' ≤ c ∧ c ≤ 'f' then some (c.toNat - 87)
  else if 'A' ≤ c ∧ c ≤ 'F' then some (c.toNat - 55)
  else none

/-- Go `net/url`'s `unescape`: validates and decodes `%HH` sequences;
with `plusSpace` (query mode) `+` becomes a space; with `hostMode` a
`%HH` with first digit below 8 is rejected unless it is literally `%25`. -/
def unescapeWith (plusSpace hostMode : Bool) : List Char → Option (List Char)
  | [] => some []
  | c :: rest =>
    if c = '%' then
      match rest with
      | a :: b :: r =>
        match hexVal a, hexVal b with
        | some x, some y =>
          if hostMode ∧ x < 8 ∧ ¬ (a = '2' ∧ b = '5') then none
          else (unescapeWith plusSpace hostMode r).map (Char.ofNat (16 * x + y) :: ·)
        | _, _ => none
      | _ => none
    else if c = '+' then
      (unescapeWith plusSpace hostMode rest).map ((if plusSpace then ' ' else '+') :: ·)
    else (unescapeWith plusSpace hostMode rest).map (c :: ·)

/-- Characters Go's `validUserinfo` accepts in the userinfo part. -/
def validUserChar (c : Char) : Bool :=
  ('A' ≤ c ∧ c ≤ 'Z') ∨ ('a' ≤ c ∧ c ≤ 'z') ∨ ('0' ≤ c ∧ c ≤ '9') ∨
    c ∈ ['-', '.', '_', ':', '~', '!', '$', '&', squote, '(', ')', '*', '+',
      ',', ';', '=', '%', '@']

/-- Go `parseHost` for non-bracketed hosts: the part after the last `:`
(when present) must be all digits (`validOptionalPort`), and the host is
percent-decoded in host mode. -/
def parseHostGo (h : List Char) : Option (List Char) :=
  if h.contains '[' then none
  else if h.contains ':' ∧ ¬ ((h.reverse.takeWhile (· ≠ ':')).all isDigitChar) then
    none
  else unescapeWith false true h

/-- Split at the *last* occurrence of `c`: the part before it (when
found) and the part after. -/
def cutAtLastChar (c : Char) (s : List Char) : Option (List Char) × List Char :=
  match (cutAtChar c s.reverse).2 with
  | some beforeRev => (some beforeRev.reverse, (cutAtChar c s.reverse).1.reverse)
  | none => (none, s)

/-- Go `parseAuthority`: userinfo before the last `@` (validated but kept
raw here; only its presence matters to the claims), host after it. -/
def parseAuthorityGo (a : List Char) :
    Option (Option (List Char) × List Char) :=
  match (cutAtLastChar '@' a).1 with
  | none => (parseHostGo (cutAtLastChar '@' a).2).map (fun host => (none, host))
  | some u =>
    match parseHostGo (cutAtLastChar '@' a).2 with
    | none => none
    | some host =>
      if u.all validUserChar ∧ (unescapeWith false false u).isSome then
        some (some u, host)
      else none

/-- The fields of Go's `url.URL` the parser reads, plus the raw
(undecoded) path. -/
structure GoURL where
  scheme : List Char
  user : Option (List Char)
  host : List Char
  path : List Char
  rawPath : List Char
  rawQuery : List Char
deriving DecidableEq, Repr

/-- ASCII control byte (Go `stringContainsCTLByte`). -/
def isCtlByte (c : Char) : Bool := c.toNat < 32 ∨ c.toNat = 127

/-- The fragment check of Go's `setFragment`: when a `#` was cut off, the
fragment must percent-decode. -/
def fragOKGo (fragPart : Option (List Char)) : Bool :=
  match fragPart with
  | some frag => (unescapeWith false false frag).isSome
  | none => true

/-- `getScheme` for the two schemes this parser can produce: the scheme
name and the rest after the `:` (still carrying its `//`). -/
def schemeSplit (beforeHash : List Char) : Option (List Char × List Char) :=
  if isPfx httpsPfx beforeHash then some ("https".data, beforeHash.drop 6)
  else if isPfx httpPfx beforeHash then some ("http".data, beforeHash.drop 5)
  else none

/-- The query split of `url.parse`: a lone trailing `?` is Go's
ForceQuery (empty query); otherwise cut at the first `?`. -/
def querySplit (rest1 : List Char) : List Char × List Char :=
  match rest1.getLast? with
  | some c =>
    if c = '?' ∧ ¬ rest1.dropLast.contains '?' then (rest1.dropLast, [])
    else ((cutAtChar '?' rest1).1, ((cutAtChar '?' rest1).2).getD [])
  | none => (rest1, [])

/-- Model of `url.Parse` (see the section comment for its scope): reject
control bytes; split the fragment at the first `#` (it must
percent-decode); take the scheme; split the query at the first `?` of the
rest; the authority runs to the first `/`; the remainder is the path,
which is percent-decoded. -/
def urlParseGo (s : List Char) : Option GoURL :=
  if s.any isCtlByte then none
  else if fragOKGo (cutAtChar '#' s).2 = false then none
  else
    match schemeSplit (cutAtChar '#' s).1 with
    | none => none
    | some p =>
      if isPfx "//".data (querySplit p.2).1 then
        match parseAuthorityGo
            (((querySplit p.2).1.drop 2).takeWhile (· ≠ '/')) with
        | none => none
        | some q =>
          match unescapeWith false false
              (((querySplit p.2).1.drop 2).dropWhile (· ≠ '/')) with
          | none => none
          | some path =>
            some ⟨p.1, q.1, q.2, path,
              ((querySplit p.2).1.drop 2).dropWhile (· ≠ '/'),
              (querySplit p.2).2⟩
      else none

/-- Go `url.ParseQuery` as used by `URL.Query()` (errors are ignored, so
offending pairs are simply skipped): split on `&`; skip segments with a
`;` and empty segments; cut at the first `=`; query-unescape key and
value, skipping the pair when either fails. -/
def queryPairsGo (q : List Char) : List (List Char × List Char) :=
  (splitOnChar '&' q).filterMap
    (fun seg =>
      if seg.contains ';' then none
      else if seg = [] then none
      else
        let c := cutAtChar '=' seg
        match unescapeWith true false c.1, unescapeWith true false ((c.2).getD []) with
        | some k, some v => some (k, v)
        | _, _ => none)

/-- Append to a key's value list (`url.Values` building:
`m[key] = append(m[key], value)`), keeping first-appearance key order. -/
def appendVal (m : List (List Char × List (List Char))) (k v : List Char) :
    List (List Char × List (List Char)) :=
  match m with
  | [] => [(k, [v])]
  | p :: r => if p.1 = k then (p.1, p.2 ++ [v]) :: r else p :: appendVal r k v

/-- The `url.Values` multimap of a pair list. -/
def queryValuesOf (ps : List (List Char × List Char)) :
    List (List Char × List (List Char)) :=
  ps.foldl (fun m p => appendVal m p.1 p.2) []

/-- `extractQueryParams` (src/parser.go lines 260-272): parse the URL
(silently doing nothing on error) and keep `values[0]` for each key. -/
def extractQueryParams (url : List Char) : List (List Char × List Char) :=
  match urlParseGo url with
  | none => []
  | some u =>
    (queryValuesOf (queryPairsGo u.rawQuery)).filterMap
      (fun p => (p.2.head?).map (fun v => (p.1, v)))

/-! ## The request records and the two `Parse` pipelines

`src/unnamed/part_000` contains an older copy of the same package whose
`extractURL`, `extractMethod`, `extractHeaders`, `extractBody` and
`extractQueryParams` are character-for-character identical to the ones in
`src/parser.go`, so those embeddings are shared; the two `Parse` bodies
differ in that only the older one performs the backslash/trim cleaning
(in `src/parser.go` those lines are commented out) and only the newer one
extracts cookies and the auxiliary options. -/

/-- The `HTTPRequest` record of src/parser.go (lines 11-46). -/
structure HTTPRequest where
  Method : List Char
  URL : List Char
  BaseURL : List Char
  Path : List Char
  Headers : List (List Char × List Char)
  Body : List Char
  Query : List (List Char × List Char)
  RawCookie : List Char
  ParsedCookies : List (List Char × List Char)
  UserAgent : List Char
  Auth : List Char
  Referer : List Char
  Proxy : List Char
  ConnectTimeout : Nat
  MaxTime : Nat
  Insecure : Bool
  CACert : List Char
  CookieJar : List Char
  FollowRedirects : Bool
deriving DecidableEq, Repr

/-- The `HTTPRequest` record of src/unnamed/part_000 (lines 11-22). -/
structure V1Request where
  Method : List Char
  URL : List Char
  BaseURL : List Char
  Path : List Char
  Headers : List (List Char × List Char)
  Body : List Char
  Query : List (List Char × List Char)
deriving DecidableEq, Repr

/-- `strings.TrimPrefix(cmd, "curl ")` guarded by `strings.HasPrefix`. -/
def dropCurl (s : List Char) : List Char :=
  if isPfx "curl ".data s then s.drop 5 else s

/-- An auxiliary scalar option field: the capture of the combined
quoted/bounded pattern, trimmed; the field default (empty) when nothing
matched. -/
def optTermField (long short : List Char) (withHttp : Bool)
    (cmd : List Char) : List Char :=
  trimGo ((scanOptTerm long short withHttp cmd).getD [])

/-- `ReplaceAll(s, "\\\n", " ")`: non-overlapping left-to-right
replacement of backslash-newline by a space. -/
def replaceBSNL : List Char → List Char
  | [] => []
  | [a] => [a]
  | a :: b :: r2 =>
    if a = '\\' ∧ b = '\n' then ' ' :: replaceBSNL r2
    else a :: replaceBSNL (b :: r2)

/-- The cleaning step of the part_000 `Parse` (lines 43-46): replace
backslash-newline by a space, delete remaining backslashes, trim. -/
def normalizeCmd (s : List Char) : List Char :=
  trimGo ((replaceBSNL s).filter (· ≠ '\\'))

/-- `Parse` of src/parser.go (lines 61-119).  The cleaning lines are
commented out there (`cmd := cp.curlCommand`), so the command is used as
given; `extractCookieFromParams` reads the original command. -/
def Parse (orig : List Char) : Option HTTPRequest :=
  let cmd := dropCurl orig
  match extractURL cmd with
  | none => none
  | some url =>
    let bp : List Char × List Char :=
      match urlParseGo url with
      | some u => (u.scheme ++ "://".data ++ u.host, u.path)
      | none => ([], [])
    let headers := extractHeaders cmd
    let fromParams := extractCookieFromParams orig
    let cookieData :=
      if fromParams ≠ [] then fromParams
      else
        match lookupAL headers "Cookie".data with
        | some v => v
        | none => (lookupAL headers "cookie".data).getD []
    some {
      Method := extractMethod cmd
      URL := url
      BaseURL := bp.1
      Path := bp.2
      Headers := headers
      Body := extractBody cmd
      Query := extractQueryParams url
      RawCookie := cookieData
      ParsedCookies := if cookieData = [] then [] else cookiePairsOf cookieData
      UserAgent := optTermField "--user-agent".data "-A".data true cmd
      Auth := optTermField "--user".data "-u".data true cmd
      Referer := optTermField "--referer".data "--referer".data false cmd
      Proxy := optTermField "--proxy".data "--proxy".data false cmd
      ConnectTimeout := digitsToNat ((findDigitsArg "--connect-timeout".data cmd).getD [])
      MaxTime := digitsToNat ((findDigitsArg "--max-time".data cmd).getD [])
      Insecure := containsSub cmd "--insecure".data
      CACert := optTermField "--cacert".data "--cacert".data true cmd
      CookieJar := optTermField "--cookie-jar".data "-c".data true cmd
      FollowRedirects :=
        containsSub cmd "-L".data ∨ containsSub cmd "--location".data
    }

/-- `Parse` of src/unnamed/part_000 (lines 37-80): cleaning, prefix
strip, then the shared extraction passes. -/
def ParseV1 (orig : List Char) : Option V1Request :=
  let cmd := dropCurl (normalizeCmd orig)
  match extractURL cmd with
  | none => none
  | some url =>
    let bp : List Char × List Char :=
      match urlParseGo url with
      | some u => (u.scheme ++ "://".data ++ u.host, u.path)
      | none => ([], [])
    some {
      Method := extractMethod cmd
      URL := url
      BaseURL := bp.1
      Path := bp.2
      Headers := extractHeaders cmd
      Body := extractBody cmd
      Query := extractQueryParams url
    }

/-! ## Claim-side definitions

These follow the wording of the claims of the specification (amended
where a counterexample forces it) and are compared with the embedded
code. -/

/-- Amended method rule of claim C4: explicit `-X`, else `--request`
argument upper-cased; else `POST` as soon as `-d`, `--data`, `-F` or
`--form` occurs anywhere as a substring (even inside the target or some
other value); else `GET`. -/
def methodAmended (c : List Char) : List Char :=
  match findTokenArg "-X".data c with
  | some w => upperL w
  | none =>
    match findTokenArg "--request".data c with
    | some w => upperL w
    | none =>
      if containsSub c "-d".data ∨ containsSub c "--data".data ∨
          containsSub c "-F".data ∨ containsSub c "--form".data then
        "POST".data
      else "GET".data

/-- Claim C7's reading of one header value: a non-empty value whose text
contains a colon contributes the whitespace-trimmed name and value split
at the first colon; anything else is discarded. -/
def headerPairOf (m : List Char) : Option (List Char × List Char) :=
  if m = [] then none
  else
    match cutAtChar ':' m with
    | (k, some v) => some (trimGo k, trimGo v)
    | (_, none) => none

/-- Claim C5's reading of the `--data-raw` source ("value runs to end of
line, optional surrounding quotes stripped"): scan for `--data-raw`, a
whitespace run, then capture to the end of the *line*. -/
def scanDataRawLine : List Char → Option (List Char)
  | [] => none
  | s@(_ :: r) =>
    if isPfx "--data-raw".data s then
      let rest := s.drop 10
      let rem := rest.dropWhile regexSpace
      if (rest.takeWhile regexSpace) ≠ [] then
        some (stripRawQuotes (rem.takeWhile (· ≠ '\n')))
      else scanDataRawLine r
    else scanDataRawLine r

/-- Claim C6's cookie-header fallback: the header literally named
`Cookie` (exact case first, then lowercase). -/
def cookieHeaderFallback (hs : List (List Char × List Char)) : List Char :=
  match lookupAL hs "Cookie".data with
  | some v => v
  | none => (lookupAL hs "cookie".data).getD []

/-- Claim C6's cookie source: the dedicated `-b`/`--cookie` option value
when it yields something, else the `Cookie` header of the extracted
header mapping. -/
def cookieSourceOf (orig : List Char) : List Char :=
  let p := extractCookieFromParams orig
  if p ≠ [] then p else cookieHeaderFallback (extractHeaders (dropCurl orig))

/-- The ordered, decoded query pairs of a target string (empty when the
target does not parse). -/
def queryPairsOfURL (url : List Char) : List (List Char × List Char) :=
  match urlParseGo url with
  | none => []
  | some u => queryPairsGo u.rawQuery

/-- The target up to its query string. -/
def preQueryOf (s : List Char) : List Char := s.takeWhile (· ≠ '?')

/-- The ordered list of values associated with `k` in a pair list. -/
def valuesOf (ps : List (List Char × List Char)) (k : List Char) :
    List (List Char) :=
  (ps.filter (fun p => decide (p.1 = k))).map Prod.snd

/-- The fields shared by the two record types, for claim C10. -/
def v2shared (r : HTTPRequest) :
    List Char × List Char × List Char × List Char ×
      List (List Char × List Char) × List Char × List (List Char × List Char) :=
  (r.Method, r.URL, r.BaseURL, r.Path, r.Headers, r.Body, r.Query)

/-- The fields shared by the two record types, for claim C10. -/
def v1shared (r : V1Request) :
    List Char × List Char × List Char × List Char ×
      List (List Char × List Char) × List Char × List (List Char × List Char) :=
  (r.Method, r.URL, r.BaseURL, r.Path, r.Headers, r.Body, r.Query)

/-! ### Concrete commands used by counterexamples and witnesses -/

/-- `curl http://`: contains the substring `http://` but no non-blank
character after it. -/
def c1cx : List Char := "curl http://".data

/-- A command with a stray backslash (the remnant of a continuation). -/
def c2cx : List Char := "curl https://h.org/x\\y".data

/-- An earlier unquoted address followed by a later single-quoted one. -/
def c3cx : List Char :=
  "http://a ".data ++ [squote] ++ "http://b".data ++ [squote]

/-- A command whose only `-d` occurrence is inside the target's path. -/
def c4cx : List Char := "curl https://h.org/a-d".data

/-- A command with a lower-case explicit method override. -/
def c4wit : List Char := "curl -X put https://h.org".data

/-- A two-line command whose `--data-raw` value sits on the first line. -/
def c5cx : List Char := "--data-raw abc def\nx".data

/-- A command with a single-quoted data option. -/
def c5wit : List Char := "-d ".data ++ [squote] ++ "a b".data ++ [squote]

/-- The cookie-precedence example of the specification. -/
def c6ex : List Char :=
  "curl -b ".data ++ [squote] ++ "x=1; y=2".data ++ [squote] ++
    " -H \"Cookie: z=3\" https://h.org/c".data

/-- The duplicate-query-key example of the specification. -/
def c8ex : List Char := "curl https://h.org/get?a=1&a=2&b=3".data

/-- A target with a percent-escape in its path. -/
def c9cx : List Char := "curl https://h.org/a%41b".data

/-- A plain target with a query string. -/
def c9ex : List Char := "curl https://h.org/get?a=1".data

/-- The record `Parse` produces for `c9ex`. -/
def c9req : HTTPRequest where
  Method := "GET".data
  URL := "https://h.org/get?a=1".data
  BaseURL := "https://h.org".data
  Path := "/get".data
  Headers := []
  Body := []
  Query := [("a".data, "1".data)]
  RawCookie := []
  ParsedCookies := []
  UserAgent := []
  Auth := []
  Referer := []
  Proxy := []
  ConnectTimeout := 0
  MaxTime := 0
  Insecure := false
  CACert := []
  CookieJar := []
  FollowRedirects := false

/-- The parsed form of `c9req.URL`. -/
def c9url : GoURL where
  scheme := "https".data
  user := none
  host := "h.org".data
  path := "/get".data
  rawPath := "/get".data
  rawQuery := "a=1".data

/-- A command with a backslash inside the target, on which the two
`Parse` implementations disagree. -/
def c10cx : List Char := "curl https://h.org/a\\b".data

/-- A backslash-free, trimmed command exercising several passes. -/
def c10ex : List Char := "-X PUT -d xy https://h.org/p?a=1".data

/-! # Lemmas about the helpers -/

theorem isPfx_self_append (p t : List Char) : isPfx p (p ++ t) = true := by
  induction p with
  | nil => simp [isPfx]
  | cons a ps ih => simpa [isPfx] using ih

theorem isPfx_iff {p s : List Char} : isPfx p s = true ↔ ∃ t, s = p ++ t := by
  constructor
  · intro h
    induction p generalizing s with
    | nil => exact ⟨s, rfl⟩
    | cons a ps ih =>
      cases s with
      | nil => simp [isPfx] at h
      | cons b t =>
        simp only [isPfx, decide_eq_true_eq] at h
        obtain ⟨rfl, h2⟩ := h
        obtain ⟨t', rfl⟩ := ih h2
        exact ⟨t', rfl⟩
  · rintro ⟨t, rfl⟩
    exact isPfx_self_append p t

theorem schemeRunAt_quote {c : Char} (r : List Char) (h : c ≠ 'h') :
    schemeRunAt (c :: r) = none := by
  have h1 : isPfx httpsPfx (c :: r) = false := by
    simp only [httpsPfx, isPfx, decide_eq_false_iff_not]
    rintro ⟨hh, -⟩
    exact h hh.symm
  have h2 : isPfx httpPfx (c :: r) = false := by
    simp only [httpPfx, isPfx, decide_eq_false_iff_not]
    rintro ⟨hh, -⟩
    exact h hh.symm
  simp [schemeRunAt, h1, h2]

/-! # Claim C3: target extraction and quoting -/

theorem urlLoose_of_isSome {r : List Char} (h : (schemeRunAt r).isSome) :
    urlLoose r = schemeRunAt r := by
  cases r with
  | nil => exact absurd h (by decide)
  | cons c2 r2 =>
    rw [urlLoose]
    cases hs : schemeRunAt (c2 :: r2) with
    | some u => rfl
    | none => rw [hs] at h; simp at h

theorem urlQuotedFirst_eq_urlLoose (s : List Char) :
    urlQuotedFirst s = urlLoose s := by
  induction s with
  | nil => rfl
  | cons c r ih =>
    rw [urlQuotedFirst, urlLoose]
    by_cases hq : (c = dquote ∨ c = squote) ∧ (schemeRunAt r).isSome
    · have hc : c ≠ 'h' := by
        rcases hq.1 with h | h <;> subst h <;> decide
      rw [if_pos hq, schemeRunAt_quote r hc, urlLoose_of_isSome hq.2]
    · rw [if_neg hq]
      cases hs : schemeRunAt (c :: r) with
      | some u => rfl
      | none => exact ih

theorem extractURL_eq_loose (s : List Char) : extractURL s = urlLoose s := by
  rw [extractURL, urlQuotedFirst_eq_urlLoose]
  cases h : urlLoose s <;> simp

/-- Claim C3, corrected: the quote in the first pattern of `extractURL`
is optional, so quoted occurrences are not preferred; the extraction is
exactly the loose leftmost `https?://[^\s"']+` match and the fallback
pattern can never fire.  (See `c3_counterexample` for the claim as
stated.) -/
theorem c3_extractURL_ignores_quotes (s : List Char) :
    extractURL s = urlLoose s :=
  extractURL_eq_loose s

/-- Counterexample to claim C3 as stated: in
`http://a 'http://b'` the earlier unquoted address wins although a later
quoted one exists (the claim predicts `http://b`). -/
theorem c3_counterexample :
    extractURL c3cx = some "http://a".data ∧
      "http://a".data ≠ "http://b".data := by
  constructor
  · decide
  · decide

/-! # Claim C1: the failure condition of `Parse` -/

theorem schemeRunAt_isSome_iff {s : List Char} :
    (schemeRunAt s).isSome ↔ schemeRunAtP s := by
  constructor
  · intro h
    rw [schemeRunAt] at h
    by_cases h1 : isPfx httpsPfx s = true
    · obtain ⟨t, rfl⟩ := isPfx_iff.mp h1
      rw [if_pos h1] at h
      have hd : (httpsPfx ++ t).drop 8 = t := List.drop_left httpsPfx t
      rw [hd] at h
      cases t with
      | nil => simp at h
      | cons c t' =>
        by_cases hc : urlChar c = true
        · exact Or.inl ⟨c, t', rfl, hc⟩
        · rw [List.takeWhile_cons, if_neg (by simp [hc])] at h
          simp at h
    · by_cases h2 : isPfx httpPfx s = true
      · obtain ⟨t, rfl⟩ := isPfx_iff.mp h2
        rw [if_neg h1, if_pos h2] at h
        have hd : (httpPfx ++ t).drop 7 = t := List.drop_left httpPfx t
        rw [hd] at h
        cases t with
        | nil => simp at h
        | cons c t' =>
          by_cases hc : urlChar c = true
          · exact Or.inr ⟨c, t', rfl, hc⟩
          · rw [List.takeWhile_cons, if_neg (by simp [hc])] at h
            simp at h
      · rw [if_neg h1, if_neg h2] at h
        simp at h
  · rintro (⟨c, t, rfl, hc⟩ | ⟨c, t, rfl, hc⟩)
    · have hd : (httpsPfx ++ c :: t).drop 8 = c :: t := List.drop_left' rfl
      rw [schemeRunAt, if_pos (isPfx_self_append httpsPfx (c :: t)), hd,
        List.takeWhile_cons, if_pos (by simp [hc])]
      simp
    · have hns : isPfx httpsPfx (httpPfx ++ c :: t) = false := by
        simp [httpsPfx, httpPfx, isPfx]
      have hd : (httpPfx ++ c :: t).drop 7 = c :: t := List.drop_left' rfl
      rw [schemeRunAt, if_neg (by simp [hns]),
        if_pos (isPfx_self_append httpPfx (c :: t)), hd,
        List.takeWhile_cons, if_pos (by simp [hc])]
      simp

theorem schemeRunAt_none_iff {s : List Char} :
    schemeRunAt s = none ↔ ¬ schemeRunAtP s := by
  rw [← schemeRunAt_isSome_iff]
  cases h : schemeRunAt s <;> simp

theorem urlLoose_none_iff (s : List Char) :
    urlLoose s = none ↔ ∀ n, ¬ schemeRunAtP (s.drop n) := by
  induction s with
  | nil =>
    simp only [urlLoose, List.drop_nil, true_iff]
    intro n
    rw [← schemeRunAt_none_iff]
    rfl
  | cons c r ih =>
    rw [urlLoose]
    cases hs : schemeRunAt (c :: r) with
    | some u =>
      simp only [false_iff, not_forall]
      constructor
      · intro h; cases h
      · intro h
        have := h 0
        rw [List.drop_zero, ← schemeRunAt_none_iff] at this
        rw [hs] at this
        cases this
    | none =>
      rw [ih]
      constructor
      · intro h n
        cases n with
        | zero =>
          rw [List.drop_zero, ← schemeRunAt_none_iff]
          exact hs
        | succ m =>
          rw [List.drop_succ_cons]
          exact h m
      · intro h n
        have := h (n + 1)
        rwa [List.drop_succ_cons] at this

theorem schemeRunAtP_head {s : List Char} (h : schemeRunAtP s) :
    ∃ t, s = 'h' :: t := by
  rcases h with ⟨c, t, rfl, -⟩ | ⟨c, t, rfl, -⟩
  · exact ⟨_, rfl⟩
  · exact ⟨_, rfl⟩

theorem hasURLPattern_dropCurl (s : List Char) :
    hasURLPattern (dropCurl s) ↔ hasURLPattern s := by
  rw [dropCurl]
  by_cases hp : isPfx "curl ".data s = true
  · obtain ⟨t, rfl⟩ := isPfx_iff.mp hp
    rw [if_pos hp]
    have hd : ("curl ".data ++ t).drop 5 = t := List.drop_left "curl ".data t
    rw [hd]
    constructor
    · rintro ⟨n, hP⟩
      refine ⟨n + 5, ?_⟩
      rwa [Nat.add_comm n 5, ← List.drop_drop n 5 ("curl ".data ++ t), hd]
    · rintro ⟨n, hP⟩
      by_cases h5 : 5 ≤ n
      · obtain ⟨m, rfl⟩ := Nat.exists_eq_add_of_le h5
        refine ⟨m, ?_⟩
        rwa [← List.drop_drop m 5 ("curl ".data ++ t), hd] at hP
      · exfalso
        obtain ⟨t', ht⟩ := schemeRunAtP_head hP
        interval_cases n <;> simp [List.drop] at ht
  · rw [if_neg hp]

/-- Claim C1, corrected: `Parse` fails exactly when the command — as
given, since the cleaning step of `Parse` is commented out, and the
whole pattern needs at least one non-whitespace, non-quote character
after the scheme — contains no position matching
`https?://[^\s"']+`; on every other input it succeeds and returns a
record (missing or malformed options leave their fields at the
defaults, there being no other failure path). -/
theorem c1_parse_fails_iff_no_pattern (s : List Char) :
    Parse s = none ↔ ¬ hasURLPattern s := by
  have h1 : Parse s = none ↔ extractURL (dropCurl s) = none := by
    cases h : extractURL (dropCurl s) with
    | none => simp [Parse, h]
    | some url => simp [Parse, h]
  rw [h1, extractURL_eq_loose, urlLoose_none_iff, ← hasURLPattern_dropCurl s]
  rw [hasURLPattern]
  push_neg
  rfl

/-- Counterexample to claim C1 as stated: `curl http://` contains a
substring starting with `http://` (and is untouched by normalization),
yet `Parse` fails. -/
theorem c1_counterexample :
    Parse c1cx = none ∧ containsSub (normalizeCmd c1cx) httpPfx = true := by
  constructor
  · decide
  · decide

/-! # Claim C2: backslash normalization (disabled in the code)

The cleaning lines of `Parse` in src/parser.go are commented out
(lines 68-72), so backslashes reach the pattern matching; the part_000
`Parse`, the commented lines themselves and the test helpers ("Clean the
command like in Parse method") all perform `normalizeCmd` first. -/

/-- Evaluation of the code at the failing input of claim C2: `Parse`
keeps the stray backslash in the target, whereas parsing the normalized
command (what the claim says always happens) removes it — so the record
differs from the one of the cleaned/joined form. -/
theorem c2_code_eval :
    (Parse c2cx).map HTTPRequest.URL = some "https://h.org/x\\y".data ∧
      (Parse (normalizeCmd c2cx)).map HTTPRequest.URL =
        some "https://h.org/xy".data := by
  constructor
  · decide
  · decide

/-! # Claim C4: method inference -/

theorem extractMethod_eq_amended (c : List Char) :
    extractMethod c = methodAmended c := by
  rw [extractMethod, methodAmended]
  cases h1 : findTokenArg "-X".data c with
  | some w => rfl
  | none =>
    cases h2 : findTokenArg "--request".data c with
    | some w => rfl
    | none =>
      by_cases hA : containsSub c "--data".data = true <;>
        by_cases hB : containsSub c "-d".data = true <;>
        by_cases hC : containsSub c "--form".data = true <;>
        by_cases hD : containsSub c "-F".data = true <;>
        simp [hA, hB, hC, hD]

/-- Claim C4, corrected: on every successfully parsed command the method
is the upper-cased argument of the first `-X` (else `--request`) match
when one exists; otherwise it is `POST` as soon as `-d`, `--data`, `-F`
or `--form` occurs anywhere *as a substring* (the code checks
`strings.Contains`, not option presence — see `c4_counterexample`);
otherwise `GET`. -/
theorem c4_method_rule (s : List Char) :
    (Parse s).map HTTPRequest.Method =
      (Parse s).map (fun _ => methodAmended (dropCurl s)) := by
  cases h : extractURL (dropCurl s) with
  | none => simp [Parse, h]
  | some url => simp [Parse, h, extractMethod_eq_amended]

/-- Counterexample to claim C4 as stated: `curl https://h.org/a-d` has
no method override and no data or form option, so the claim predicts
`GET`, but the `-d` inside the target's path makes the code answer
`POST`. -/
theorem c4_counterexample :
    findTokenArg "-X".data (dropCurl c4cx) = none ∧
      findTokenArg "--request".data (dropCurl c4cx) = none ∧
      (Parse c4cx).map HTTPRequest.Method = some "POST".data := by
  refine ⟨by decide, by decide, by decide⟩

/-! # Claim C10: agreement of the two `Parse` implementations -/

/-- Claim C10, corrected: the two implementations agree on their shared
fields exactly on the commands the part_000 cleaning step leaves
untouched (no backslashes, no surrounding whitespace); on other inputs
they can differ (see `c10_counterexample`). -/
theorem c10_agree_on_clean (s : List Char) (h : normalizeCmd s = s) :
    (Parse s).map v2shared = (ParseV1 s).map v1shared := by
  cases hu : extractURL (dropCurl s) with
  | none => simp [Parse, ParseV1, h, hu]
  | some url => simp [Parse, ParseV1, h, hu, v2shared, v1shared]

/-- Witness for `c10_agree_on_clean` at a concrete clean command. -/
theorem c10_witness :
    normalizeCmd c10ex = c10ex ∧
      (Parse c10ex).map v2shared = (ParseV1 c10ex).map v1shared :=
  ⟨by decide, c10_agree_on_clean c10ex (by decide)⟩

/-- Counterexample to claim C10 as stated: on a command with a stray
backslash the two implementations return different URLs (part_000
normalizes, src/parser.go does not). -/
theorem c10_counterexample :
    (Parse c10cx).map HTTPRequest.URL = some "https://h.org/a\\b".data ∧
      (ParseV1 c10cx).map V1Request.URL = some "https://h.org/ab".data ∧
      "https://h.org/a\\b".data ≠ "https://h.org/ab".data := by
  refine ⟨by decide, by decide, by decide⟩

/-! # Claim C5: body-source priority -/

/-- Claim C5, corrected: the five body sources are tried in the stated
priority order with first-success-wins; when no data source matches, the
body is the non-empty form captures joined with `&` (the empty string
when there are none).  The correction: the `--data-raw` value runs to
the end of the whole command text, not to the end of its line — the
variant cannot match at all when more lines follow
(see `c5_counterexample`). -/
theorem c5_body_priority (s : List Char) :
    (∀ b, scanDataQuoted squote s = some b → extractBody s = b) ∧
    (scanDataQuoted squote s = none →
      ∀ b, scanDataQuoted dquote s = some b → extractBody s = b) ∧
    (scanDataQuoted squote s = none → scanDataQuoted dquote s = none →
      ∀ b, scanDataRaw s = some b → extractBody s = b) ∧
    (scanDataQuoted squote s = none → scanDataQuoted dquote s = none →
      scanDataRaw s = none →
      ∀ b, scanDataBare s = some b → extractBody s = b) ∧
    (scanDataQuoted squote s = none → scanDataQuoted dquote s = none →
      scanDataRaw s = none → scanDataBare s = none →
      extractBody s =
        List.intercalate "&".data ((formMatches s).filter (· ≠ []))) := by
  refine ⟨?_, ?_, ?_, ?_, ?_⟩
  · intro b hb
    simp [extractBody, hb]
  · intro h1 b hb
    simp [extractBody, h1, hb]
  · intro h1 h2 b hb
    simp [extractBody, h1, h2, hb]
  · intro h1 h2 h3 b hb
    simp [extractBody, h1, h2, h3, hb]
  · intro h1 h2 h3 h4
    simp only [extractBody, h1, h2, h3, h4]
    cases hf : formMatches s with
    | nil => rfl
    | cons a l => rfl

/-- Witness for `c5_body_priority`: a single-quoted data value wins. -/
theorem c5_witness :
    scanDataQuoted squote c5wit = some "a b".data ∧
      extractBody c5wit = "a b".data :=
  ⟨by decide, (c5_body_priority c5wit).1 "a b".data (by decide)⟩

/-- Counterexample to claim C5 as stated: on a two-line command whose
`--data-raw` value sits on the first line, the claim's "value to end of
line" reading produces `abc def`, but `extractBody` produces the empty
string (the `$` of the Go pattern is the end of the whole text and `.`
cannot cross the newline). -/
theorem c5_counterexample :
    scanDataQuoted squote c5cx = none ∧ scanDataQuoted dquote c5cx = none ∧
      scanDataRawLine c5cx = some "abc def".data ∧
      extractBody c5cx = [] ∧ "abc def".data ≠ ([] : List Char) := by
  refine ⟨by decide, by decide, by decide, by decide, by decide⟩

/-! # Claim C6: cookie resolution -/

/-- Claim C6, confirmed: on every successfully parsed command the raw
cookie is the dedicated option's value when that yields something, else
the `Cookie` header (exact case, then lowercase) of the extracted
headers; the parsed cookies are its `;`/first-`=` decomposition with
trimming (empty when no source yields anything, with no error);
and the header mapping itself is exactly `extractHeaders`'s output,
untouched by cookie extraction.  The second conjunct checks the
specification's own example, where the option wins and the `Cookie`
header entry survives verbatim. -/
theorem c6_cookie_resolution :
    (∀ s, (Parse s).map (fun r => (r.RawCookie, r.ParsedCookies, r.Headers)) =
      (Parse s).map (fun _ => (cookieSourceOf s,
        cookiePairsOf (cookieSourceOf s), extractHeaders (dropCurl s)))) ∧
    (Parse c6ex).map
        (fun r => (r.RawCookie, r.ParsedCookies, lookupAL r.Headers "Cookie".data)) =
      some ("x=1; y=2".data,
        [("x".data, "1".data), ("y".data, "2".data)], some "z=3".data) := by
  constructor
  · intro s
    cases h : extractURL (dropCurl s) with
    | none => simp [Parse, h]
    | some url =>
      have hck : ∀ cd : List Char,
          (if cd = [] then ([] : List (List Char × List Char))
            else cookiePairsOf cd) = cookiePairsOf cd := by
        intro cd
        by_cases hcd : cd = []
        · subst hcd
          decide
        · simp [hcd]
      simp only [Parse, h, Option.map_some', cookieSourceOf,
        cookieHeaderFallback, hck]
  · decide

/-! # Claim C7: the header mapping -/

theorem lookupAL_updateAL {α : Type} (m : List (List Char × α))
    (k : List Char) (v : α) (x : List Char) :
    lookupAL (updateAL m k v) x = if x = k then some v else lookupAL m x := by
  induction m with
  | nil =>
    show lookupAL [(k, v)] x = _
    rw [lookupAL, lookupAL]
    by_cases h : x = k
    · rw [if_pos h.symm, if_pos h]
    · rw [if_neg (fun hh : k = x => h hh.symm), if_neg h]
      rfl
  | cons p r ih =>
    rw [updateAL]
    by_cases h1 : p.1 = k
    · rw [if_pos h1, lookupAL, lookupAL]
      by_cases h2 : x = k
      · rw [if_pos h2.symm, if_pos h2]
      · rw [if_neg (fun hh : k = x => h2 hh.symm), if_neg h2,
          if_neg (fun hh : p.1 = x => h2 (h1.symm.trans hh).symm)]
    · rw [if_neg h1, lookupAL, ih, lookupAL]
      by_cases h3 : p.1 = x
      · have hx : ¬ x = k := fun hh => h1 (h3.trans hh)
        rw [if_pos h3, if_neg hx, if_pos h3]
      · rw [if_neg h3, if_neg h3]

theorem mem_keys_updateAL {α : Type} {m : List (List Char × α)}
    {k : List Char} {v : α} {a : List Char} :
    a ∈ (updateAL m k v).map Prod.fst ↔ a = k ∨ a ∈ m.map Prod.fst := by
  induction m with
  | nil =>
    show a ∈ [(k, v)].map Prod.fst ↔ _
    simp
  | cons p r ih =>
    by_cases h1 : p.1 = k
    · subst h1
      rw [updateAL, if_pos rfl, List.map_cons, List.map_cons]
      simp only [List.mem_cons]
      tauto
    · rw [updateAL, if_neg h1, List.map_cons, List.map_cons]
      simp only [List.mem_cons, ih]
      tauto

theorem nodup_keys_updateAL {α : Type} {m : List (List Char × α)}
    (k : List Char) (v : α) (h : (m.map Prod.fst).Nodup) :
    ((updateAL m k v).map Prod.fst).Nodup := by
  induction m with
  | nil =>
    show ([(k, v)].map Prod.fst).Nodup
    simp
  | cons p r ih =>
    rw [List.map_cons, List.nodup_cons] at h
    by_cases h1 : p.1 = k
    · subst h1
      rw [updateAL, if_pos rfl, List.map_cons]
      exact List.nodup_cons.mpr h
    · rw [updateAL, if_neg h1, List.map_cons, List.nodup_cons]
      refine ⟨?_, ih h.2⟩
      rw [mem_keys_updateAL]
      push_neg
      exact ⟨h1, h.1⟩

theorem nodup_keys_addHeader (acc : List (List Char × List Char))
    (m : List Char) (h : (acc.map Prod.fst).Nodup) :
    ((addHeader acc m).map Prod.fst).Nodup := by
  rw [addHeader]
  split
  · exact h
  · split
    · exact nodup_keys_updateAL _ _ h
    · exact h

theorem nodup_keys_foldl_addHeader (ms : List (List Char))
    (acc : List (List Char × List Char)) (h : (acc.map Prod.fst).Nodup) :
    (((ms.foldl addHeader acc)).map Prod.fst).Nodup := by
  induction ms generalizing acc with
  | nil => exact h
  | cons m rest ih => exact ih _ (nodup_keys_addHeader acc m h)

theorem addHeader_eq (hs : List (List Char × List Char)) (m : List Char) :
    addHeader hs m =
      match headerPairOf m with
      | some p => updateAL hs p.1 p.2
      | none => hs := by
  rw [addHeader, headerPairOf]
  split
  · rfl
  · rcases h : cutAtChar ':' m with ⟨k, o⟩
    cases o <;> simp [h]

theorem lookup_foldl_addHeader (ms : List (List Char))
    (acc : List (List Char × List Char)) (k : List Char) :
    lookupAL (ms.foldl addHeader acc) k =
      match (ms.filterMap headerPairOf).reverse.find?
          (fun p => decide (p.1 = k)) with
      | some p => some p.2
      | none => lookupAL acc k := by
  induction ms generalizing acc with
  | nil => simp
  | cons m rest ih =>
    rw [List.foldl_cons, ih (addHeader acc m), addHeader_eq,
      List.filterMap_cons]
    cases hm : headerPairOf m with
    | none => rfl
    | some p =>
      rw [List.reverse_cons, List.find?_append]
      cases hf : (rest.filterMap headerPairOf).reverse.find?
          (fun q => decide (q.1 = k)) with
      | some q => simp [hf]
      | none =>
        simp only [hf, Option.none_or]
        rw [lookupAL_updateAL]
        by_cases hk : p.1 = k
        · have hfp : List.find? (fun q => decide (q.1 = k)) [p] = some p := by
            simp [List.find?, hk]
          rw [hfp, if_pos hk.symm]
        · have hfp : List.find? (fun q => decide (q.1 = k)) [p] = none := by
            simp [List.find?, hk]
          rw [hfp, if_neg (fun hh : k = p.1 => hk hh.symm)]

/-- Claim C7, confirmed: the header mapping binds each key at most once
(`Nodup` keys); a key's value is the trimmed right part of the *last*
matched header option whose (non-empty) text contains a colon and whose
trimmed left part is that key; values without a colon contribute
nothing. -/
theorem c7_header_mapping (cmd : List Char) :
    ((extractHeaders cmd).map Prod.fst).Nodup ∧
      ∀ k, lookupAL (extractHeaders cmd) k =
        match ((headerMatches cmd).filterMap headerPairOf).reverse.find?
            (fun p => decide (p.1 = k)) with
        | some p => some p.2
        | none => none := by
  constructor
  · exact nodup_keys_foldl_addHeader _ _ (by simp)
  · intro k
    rw [extractHeaders, lookup_foldl_addHeader]
    cases h : ((headerMatches cmd).filterMap headerPairOf).reverse.find?
        (fun p => decide (p.1 = k)) with
    | some p => simp [h]
    | none => simp [h, lookupAL]

/-! # Claim C8: first-value-wins query parameters -/

theorem lookupAL_appendVal (m : List (List Char × List (List Char)))
    (k : List Char) (v : List Char) (x : List Char) :
    lookupAL (appendVal m k v) x =
      if x = k then some ((lookupAL m k).getD [] ++ [v])
      else lookupAL m x := by
  induction m with
  | nil =>
    show lookupAL [(k, [v])] x = _
    by_cases h : x = k
    · subst h
      simp [lookupAL]
    · simp only [lookupAL]
      rw [if_neg (fun hh : k = x => h hh.symm), if_neg h]
  | cons p r ih =>
    by_cases h1 : p.1 = k
    · simp only [appendVal, if_pos h1, lookupAL, Option.getD_some]
      by_cases h2 : x = k
      · subst h2
        simp [h1]
      · rw [if_neg (fun hh : p.1 = x => h2 (h1.symm.trans hh).symm), if_neg h2,
          if_neg (fun hh : p.1 = x => h2 (h1.symm.trans hh).symm)]
    · simp only [appendVal, if_neg h1, lookupAL, ih]
      by_cases h3 : p.1 = x
      · have hx : ¬ x = k := fun hh => h1 (h3.trans hh)
        rw [if_pos h3, if_neg hx, if_pos h3]
      · rw [if_neg h3, if_neg h3]

theorem lookup_foldl_appendVal (ps : List (List Char × List Char))
    (acc : List (List Char × List (List Char))) (k : List Char) :
    lookupAL (ps.foldl (fun m p => appendVal m p.1 p.2) acc) k =
      if valuesOf ps k = [] then lookupAL acc k
      else some ((lookupAL acc k).getD [] ++ valuesOf ps k) := by
  induction ps generalizing acc with
  | nil => simp [valuesOf]
  | cons p rest ih =>
    rw [List.foldl_cons, ih]
    by_cases hk : p.1 = k
    · have hv : valuesOf (p :: rest) k = p.2 :: valuesOf rest k := by
        simp [valuesOf, List.filter_cons, hk]
      have hl : lookupAL (appendVal acc p.1 p.2) k =
          some ((lookupAL acc k).getD [] ++ [p.2]) := by
        rw [lookupAL_appendVal, if_pos hk.symm, hk]
      rw [hv, if_neg (by simp : ¬ p.2 :: valuesOf rest k = [])]
      by_cases hr : valuesOf rest k = []
      · rw [if_pos hr, hl, hr]
      · rw [if_neg hr, hl, Option.getD_some, List.append_assoc]
        rfl
    · have hv : valuesOf (p :: rest) k = valuesOf rest k := by
        simp [valuesOf, List.filter_cons, hk]
      have hl : lookupAL (appendVal acc p.1 p.2) k = lookupAL acc k := by
        rw [lookupAL_appendVal, if_neg (fun hh : k = p.1 => hk hh.symm)]
      rw [hv, hl]

theorem appendVal_entries_ne_nil {m : List (List Char × List (List Char))}
    {k v} (h : ∀ q ∈ m, q.2 ≠ ([] : List (List Char))) :
    ∀ q ∈ appendVal m k v, q.2 ≠ [] := by
  induction m with
  | nil =>
    intro q hq
    rw [appendVal] at hq
    rcases List.mem_singleton.mp hq with rfl
    simp
  | cons p r ih =>
    intro q hq
    rw [appendVal] at hq
    by_cases h1 : p.1 = k
    · rw [if_pos h1] at hq
      rcases List.mem_cons.mp hq with rfl | hq2
      · simp
      · exact h q (List.mem_cons_of_mem _ hq2)
    · rw [if_neg h1] at hq
      rcases List.mem_cons.mp hq with rfl | hq2
      · exact h q (List.mem_cons_self _ _)
      · exact ih (fun q2 hq2b => h q2 (List.mem_cons_of_mem _ hq2b)) q hq2

theorem queryValues_entries_ne_nil (ps : List (List Char × List Char)) :
    ∀ q ∈ queryValuesOf ps, q.2 ≠ [] := by
  rw [queryValuesOf]
  have : ∀ (acc : List (List Char × List (List Char))),
      (∀ q ∈ acc, q.2 ≠ ([] : List (List Char))) →
      ∀ q ∈ ps.foldl (fun m p => appendVal m p.1 p.2) acc, q.2 ≠ [] := by
    induction ps with
    | nil => intro acc h; exact h
    | cons p rest ih =>
      intro acc h
      exact ih _ (appendVal_entries_ne_nil h)
  exact this [] (by simp)

theorem lookup_filterMap_head (m : List (List Char × List (List Char)))
    (k : List Char) (hm : ∀ q ∈ m, q.2 ≠ []) :
    lookupAL (m.filterMap (fun p => (p.2.head?).map (fun v => (p.1, v)))) k =
      (lookupAL m k).bind List.head? := by
  induction m with
  | nil => rfl
  | cons p r ih =>
    have hp : p.2 ≠ [] := hm p (List.mem_cons_self _ _)
    cases hv : p.2 with
    | nil => exact absurd hv hp
    | cons v vs =>
      rw [List.filterMap_cons]
      simp only [hv, List.head?_cons, Option.map_some']
      rw [lookupAL, lookupAL]
      by_cases hk : p.1 = k
      · rw [if_pos hk, if_pos hk, hv]
        rfl
      · rw [if_neg hk, if_neg hk]
        exact ih (fun q hq => hm q (List.mem_cons_of_mem _ hq))

theorem head_valuesOf_eq_find (ps : List (List Char × List Char))
    (k : List Char) :
    (valuesOf ps k).head? =
      (ps.find? (fun p => decide (p.1 = k))).map Prod.snd := by
  induction ps with
  | nil => rfl
  | cons p r ih =>
    by_cases hk : p.1 = k
    · rw [List.find?_cons_of_pos _ (by simp [hk])]
      simp [valuesOf, List.filter_cons, hk]
    · rw [List.find?_cons_of_neg _ (by simp [hk])]
      rw [valuesOf, List.filter_cons, if_neg (by simp [hk])]
      rw [valuesOf] at ih
      exact ih

theorem lookup_extractQueryParams (url : List Char) (k : List Char) :
    lookupAL (extractQueryParams url) k =
      ((queryPairsOfURL url).find? (fun p => decide (p.1 = k))).map Prod.snd := by
  rw [extractQueryParams, queryPairsOfURL]
  cases hu : urlParseGo url with
  | none => rfl
  | some u =>
    rw [lookup_filterMap_head _ _ (queryValues_entries_ne_nil _), queryValuesOf,
      lookup_foldl_appendVal, ← head_valuesOf_eq_find]
    by_cases hr : valuesOf (queryPairsGo u.rawQuery) k = []
    · rw [if_pos hr, hr]
      rfl
    · rw [if_neg hr]
      cases hvs : valuesOf (queryPairsGo u.rawQuery) k with
      | nil => exact absurd hvs hr
      | cons v vs => rfl

/-- Claim C8, confirmed: on every successfully parsed command the query
mapping binds each key of the target's query string to the *first* value
associated with it, in left-to-right order of the decoded pairs; later
values of a repeated key are dropped.  The second conjunct checks the
specification's duplicate-key example. -/
theorem c8_query_first_value (s : List Char) (k : List Char) :
    ((Parse s).map (fun r => lookupAL r.Query k) =
      (Parse s).map (fun r =>
        ((queryPairsOfURL r.URL).find? (fun p => decide (p.1 = k))).map
          Prod.snd)) ∧
    (Parse c8ex).map HTTPRequest.Query =
      some [("a".data, "1".data), ("b".data, "3".data)] := by
  constructor
  · cases h : extractURL (dropCurl s) with
    | none => simp [Parse, h]
    | some url => simp [Parse, h, lookup_extractQueryParams]
  · decide

/-! # Claim C9: the origin/path/target invariant -/

theorem cutAtChar_not_mem {c : Char} {s : List Char} (h : c ∉ s) :
    cutAtChar c s = (s, none) := by
  induction s with
  | nil => rfl
  | cons a r ih =>
    have ha : ¬ a = c := fun hh => h (List.mem_cons.mpr (Or.inl hh.symm))
    have hr : c ∉ r := fun hh => h (List.mem_cons_of_mem _ hh)
    simp [cutAtChar, ha, ih hr]

theorem cutAtChar_fst (c : Char) (s : List Char) :
    (cutAtChar c s).1 = s.takeWhile (· ≠ c) := by
  induction s with
  | nil => rfl
  | cons a r ih =>
    by_cases h : a = c
    · simp [cutAtChar, List.takeWhile_cons, h]
    · simp [cutAtChar, List.takeWhile_cons, h, ih]

theorem unescape_no_percent (m : Bool) {s : List Char} (h : '%' ∉ s) :
    unescapeWith false m s = some s := by
  induction s with
  | nil => rfl
  | cons c r ih =>
    have hc : ¬ c = '%' := fun hh => h (List.mem_cons.mpr (Or.inl hh.symm))
    have hr : '%' ∉ r := fun hh => h (List.mem_cons_of_mem _ hh)
    have hstep : unescapeWith false m (c :: r) =
        if c = '+' then (unescapeWith false m r).map ('+' :: ·)
        else (unescapeWith false m r).map (c :: ·) := by
      match r with
      | [] => simp [unescapeWith, hc]
      | [a] => simp [unescapeWith, hc]
      | a :: b :: r2 => simp [unescapeWith, hc]
    rw [hstep]
    by_cases hp : c = '+'
    · subst hp
      rw [if_pos rfl, ih hr]
      rfl
    · rw [if_neg hp, ih hr]
      rfl

theorem parseHostGo_no_percent {h host : List Char} (hp : '%' ∉ h)
    (hh : parseHostGo h = some host) : host = h := by
  rw [parseHostGo] at hh
  split_ifs at hh
  rw [unescape_no_percent true hp] at hh
  exact (Option.some_inj.mp hh).symm

theorem cutAtLastChar_snd_of_none {c : Char} {s : List Char}
    (h : (cutAtLastChar c s).1 = none) : (cutAtLastChar c s).2 = s := by
  rw [cutAtLastChar] at h ⊢
  cases hc : (cutAtChar c s.reverse).2 with
  | some br =>
    rw [hc] at h
    exact Option.noConfusion h
  | none => rfl

theorem parseAuthorityGo_none_user {a host : List Char} (hp : '%' ∉ a)
    (h : parseAuthorityGo a = some (none, host)) : host = a := by
  unfold parseAuthorityGo at h
  split at h
  · next hc =>
    rw [cutAtLastChar_snd_of_none hc] at h
    cases hph : parseHostGo a with
    | none =>
      rw [hph] at h
      exact Option.noConfusion h
    | some hst =>
      rw [hph] at h
      simp only [Option.map_some', Option.some.injEq, Prod.mk.injEq] at h
      rw [← h.2]
      exact parseHostGo_no_percent hp hph
  · split at h
    · exact Option.noConfusion h
    · split_ifs at h
      simp at h

theorem querySplit_fst (r1 : List Char) :
    (querySplit r1).1 = r1.takeWhile (· ≠ '?') := by
  rw [querySplit]
  cases hl : r1.getLast? with
  | none =>
    have : r1 = [] := List.getLast?_eq_none_iff.mp hl
    subst this
    rfl
  | some c =>
    show (if c = '?' ∧ ¬ r1.dropLast.contains '?' = true then
        (r1.dropLast, ([] : List Char))
      else ((cutAtChar '?' r1).1, (cutAtChar '?' r1).2.getD [])).1 =
        r1.takeWhile (· ≠ '?')
    by_cases hspec : c = '?' ∧ ¬ r1.dropLast.contains '?' = true
    · rw [if_pos hspec]
      obtain ⟨hc, hnc⟩ := hspec
      subst hc
      obtain ⟨ys, rfl⟩ := List.getLast?_eq_some_iff.mp hl
      have hys : ys.contains '?' = false := by
        cases hb : (ys ++ ['?']).dropLast.contains '?'
        · rwa [List.dropLast_concat] at hb
        · exact absurd hb hnc
      rw [List.dropLast_concat]
      have hmem : ∀ a ∈ ys, (fun x => decide (x ≠ '?')) a = true := by
        intro a ha
        have hne : ¬ a = '?' := by
          intro hh
          subst hh
          have hcon : ys.contains '?' = true := by
            simp [List.contains, ha]
          rw [hcon] at hys
          cases hys
        simp [hne]
      rw [List.takeWhile_append_of_pos hmem]
      simp
    · rw [if_neg hspec, cutAtChar_fst]

theorem schemeSplit_some {s : List Char} {p : List Char × List Char}
    (h : schemeSplit s = some p) :
    (p.1 = "https".data ∧ ∃ t, s = httpsPfx ++ t ∧ p.2 = "//".data ++ t) ∨
      (p.1 = "http".data ∧ ∃ t, s = httpPfx ++ t ∧ p.2 = "//".data ++ t) := by
  rw [schemeSplit] at h
  split_ifs at h with h1 h2
  · obtain ⟨t, rfl⟩ := isPfx_iff.mp h1
    obtain rfl := Option.some_inj.mp h
    left
    refine ⟨rfl, t, rfl, ?_⟩
    show (httpsPfx ++ t).drop 6 = "//".data ++ t
    have h6 : httpsPfx ++ t = "https:".data ++ ("//".data ++ t) := by
      simp [httpsPfx]
    rw [h6]
    exact List.drop_left' rfl
  · obtain ⟨t, rfl⟩ := isPfx_iff.mp h2
    obtain rfl := Option.some_inj.mp h
    right
    refine ⟨rfl, t, rfl, ?_⟩
    show (httpPfx ++ t).drop 5 = "//".data ++ t
    have h5 : httpPfx ++ t = "http:".data ++ ("//".data ++ t) := by
      simp [httpPfx]
    rw [h5]
    exact List.drop_left' rfl

theorem url_recon {url : List Char} {u : GoURL} (h : urlParseGo url = some u)
    (hu : u.user = none) (hh : '#' ∉ url) (hp : '%' ∉ preQueryOf url) :
    u.scheme ++ "://".data ++ u.host ++ u.path = preQueryOf url := by
  rw [urlParseGo, cutAtChar_not_mem hh] at h
  by_cases hctl : url.any isCtlByte = true
  · rw [if_pos hctl] at h
    exact Option.noConfusion h
  have hfrag :
      ¬ fragOKGo ((url, none) : List Char × Option (List Char)).2 = false := by
    intro hx
    simp [fragOKGo] at hx
  rw [if_neg hctl, if_neg hfrag] at h
  split at h
  · exact Option.noConfusion h
  rename_i p heq
  have heq2 : schemeSplit url = some p := heq
  rcases schemeSplit_some heq2 with ⟨hsc, t, hurl, hr2⟩ | ⟨hsc, t, hurl, hr2⟩
  · have hq1 : (querySplit p.2).1 = "//".data ++ t.takeWhile (· ≠ '?') := by
      rw [querySplit_fst, hr2]
      exact List.takeWhile_append_of_pos (by decide)
    have hpre : preQueryOf url = httpsPfx ++ t.takeWhile (· ≠ '?') := by
      rw [preQueryOf, hurl]
      exact List.takeWhile_append_of_pos (by decide)
    rw [hq1, if_pos (isPfx_self_append _ _)] at h
    have hd2 : ("//".data ++ t.takeWhile (· ≠ '?')).drop 2 =
        t.takeWhile (· ≠ '?') := List.drop_left' rfl
    rw [hd2] at h
    split at h
    · exact Option.noConfusion h
    rename_i q heqa
    split at h
    · exact Option.noConfusion h
    rename_i path heqp
    obtain rfl := (Option.some_inj.mp h)
    have hq0 : q.1 = none := hu
    rw [hpre] at hp
    have hpT : '%' ∉ t.takeWhile (· ≠ '?') :=
      fun hm => hp (List.mem_append.mpr (Or.inr hm))
    have hpA : '%' ∉ (t.takeWhile (· ≠ '?')).takeWhile (· ≠ '/') :=
      fun hm => hpT ((List.takeWhile_sublist _).subset hm)
    have hpR : '%' ∉ (t.takeWhile (· ≠ '?')).dropWhile (· ≠ '/') :=
      fun hm => hpT ((List.dropWhile_sublist _).subset hm)
    have heqa2 : parseAuthorityGo
        ((t.takeWhile (· ≠ '?')).takeWhile (· ≠ '/')) = some (none, q.2) := by
      rw [← hq0]
      exact heqa
    have hhost := parseAuthorityGo_none_user hpA heqa2
    rw [unescape_no_percent false hpR] at heqp
    have hpath := (Option.some_inj.mp heqp).symm
    show p.1 ++ "://".data ++ q.2 ++ path = preQueryOf url
    rw [hpre, hsc, hhost, hpath]
    have hS : ("https".data ++ "://".data : List Char) = httpsPfx := by decide
    rw [hS, List.append_assoc, List.takeWhile_append_dropWhile]
  · have hq1 : (querySplit p.2).1 = "//".data ++ t.takeWhile (· ≠ '?') := by
      rw [querySplit_fst, hr2]
      exact List.takeWhile_append_of_pos (by decide)
    have hpre : preQueryOf url = httpPfx ++ t.takeWhile (· ≠ '?') := by
      rw [preQueryOf, hurl]
      exact List.takeWhile_append_of_pos (by decide)
    rw [hq1, if_pos (isPfx_self_append _ _)] at h
    have hd2 : ("//".data ++ t.takeWhile (· ≠ '?')).drop 2 =
        t.takeWhile (· ≠ '?') := List.drop_left' rfl
    rw [hd2] at h
    split at h
    · exact Option.noConfusion h
    rename_i q heqa
    split at h
    · exact Option.noConfusion h
    rename_i path heqp
    obtain rfl := (Option.some_inj.mp h)
    have hq0 : q.1 = none := hu
    rw [hpre] at hp
    have hpT : '%' ∉ t.takeWhile (· ≠ '?') :=
      fun hm => hp (List.mem_append.mpr (Or.inr hm))
    have hpA : '%' ∉ (t.takeWhile (· ≠ '?')).takeWhile (· ≠ '/') :=
      fun hm => hpT ((List.takeWhile_sublist _).subset hm)
    have hpR : '%' ∉ (t.takeWhile (· ≠ '?')).dropWhile (· ≠ '/') :=
      fun hm => hpT ((List.dropWhile_sublist _).subset hm)
    have heqa2 : parseAuthorityGo
        ((t.takeWhile (· ≠ '?')).takeWhile (· ≠ '/')) = some (none, q.2) := by
      rw [← hq0]
      exact heqa
    have hhost := parseAuthorityGo_none_user hpA heqa2
    rw [unescape_no_percent false hpR] at heqp
    have hpath := (Option.some_inj.mp heqp).symm
    show p.1 ++ "://".data ++ q.2 ++ path = preQueryOf url
    rw [hpre, hsc, hhost, hpath]
    have hS : ("http".data ++ "://".data : List Char) = httpPfx := by decide
    rw [hS, List.append_assoc, List.takeWhile_append_dropWhile]

/-- Claim C9 (amended): for every successfully parsed command whose
target parses as a structured address with no userinfo, no `#` and no
percent-escape before the query, BaseURL ++ Path equals the target up to
its query string.  The restrictions are forced: `url.Parse`
percent-decodes the path and drops userinfo from Host, and a fragment is
cut off, so on such targets the reassembly differs from the target. -/
theorem c9_origin_path_invariant (s : List Char) (r : HTTPRequest)
    (u : GoURL) (h : Parse s = some r) (hu : urlParseGo r.URL = some u)
    (huser : u.user = none) (hh : '#' ∉ r.URL)
    (hp : '%' ∉ preQueryOf r.URL) :
    r.BaseURL ++ r.Path = preQueryOf r.URL := by
  cases hex : extractURL (dropCurl s) with
  | none => simp [Parse, hex] at h
  | some url =>
    simp only [Parse, hex] at h
    obtain rfl := Option.some_inj.mp h
    have hu2 : urlParseGo url = some u := hu
    have hh2 : '#' ∉ url := hh
    have hp2 : '%' ∉ preQueryOf url := hp
    simp only [hu2]
    exact url_recon hu2 huser hh2 hp2

/-- Witness for claim C9: `curl https://h.org/get?a=1` parses to the
record `c9req`, whose target parses to `c9url` satisfying every
hypothesis, and the reassembly equation holds there. -/
theorem c9_witness :
    Parse c9ex = some c9req ∧ urlParseGo c9req.URL = some c9url ∧
      c9url.user = none ∧ '#' ∉ c9req.URL ∧ '%' ∉ preQueryOf c9req.URL ∧
      c9req.BaseURL ++ c9req.Path = preQueryOf c9req.URL :=
  ⟨by decide, by decide, by decide, by decide, by decide,
    c9_origin_path_invariant c9ex c9req c9url (by decide) (by decide)
      (by decide) (by decide) (by decide)⟩

/-- Counterexample to claim C9 as stated: for `curl https://h.org/a%41b`
the target parses as a structured address, yet the code percent-decodes
the path, so BaseURL ++ Path gives `https://h.org/aAb` while the target
up to its (absent) query string is `https://h.org/a%41b`. -/
theorem c9_counterexample :
    (Parse c9cx).map (fun r => r.BaseURL ++ r.Path) =
        some "https://h.org/aAb".data ∧
      (Parse c9cx).map (fun r => (urlParseGo r.URL).isSome) = some true ∧
      (Parse c9cx).map (fun r => preQueryOf r.URL) =
        some "https://h.org/a%41b".data := by
  refine ⟨?_, ?_, ?_⟩
  · decide
  · decide
  · decide

end CurlParser
